import Mathlib

/-!
Verification development for the audio-to-annotated-melody pipeline
(`audio_processing/src/audio2midi`): note segmentation
(`note_utils.midi_notes_to_intervals`, the clustering loop of
`pitch_extraction.cluster_notes_with_confidence`), note refinement
(`note_utils.merge_short_notes`, `note_utils.smooth_vibrato`),
segment/note alignment (`note_utils.match_segments_and_notes`) and the
export dispatch (`generate_midi_with_lyrics.export_segments`).

Real numbers of the source are modelled as rationals; a possibly-NaN
pitch value is modelled as `Option ℚ` (`none` = NaN).  Notes are triples
`(start_time, end_time, pitch)` exactly as the source's tuples.
-/

/-- Python's `round` (banker's rounding, round half to even) on rationals,
as used on `current_note` in `midi_notes_to_intervals`. -/
def pyRound (q : ℚ) : ℤ :=
  let f := ⌊q⌋
  if q - f < 1/2 then f
  else if (1:ℚ)/2 < q - f then f + 1
  else if f % 2 = 0 then f else f + 1

/-- Stable sort of note triples by start time: model of
`sorted(notes, key=lambda x: x[0])`. -/
def sortNotes (notes : List (ℚ × ℚ × ℚ)) : List (ℚ × ℚ × ℚ) :=
  List.insertionSort (fun a b => a.1 ≤ b.1) notes

instance : IsTotal (ℚ × ℚ × ℚ) (fun a b => a.1 ≤ b.1) := ⟨fun a b => le_total a.1 b.1⟩
instance : IsTrans (ℚ × ℚ × ℚ) (fun a b => a.1 ≤ b.1) := ⟨fun _ _ _ h h' => le_trans h h'⟩

/-- Closing the open accumulator of `midi_notes_to_intervals` at frame
index `i`: emit `(start_frame*fd, i*fd, round(current_note))` when the
duration `(i - start_frame)*fd` reaches `min_duration`, else nothing
(note_utils.py lines 62-81). -/
def closeAcc (fd minDur : ℚ) (i : ℕ) : Option (ℚ × ℕ) → List (ℚ × ℚ × ℚ)
  | some (c, s) =>
    if minDur ≤ ((i - s : ℕ) : ℚ) * fd then
      [((s : ℚ) * fd, (i : ℚ) * fd, ((pyRound c : ℤ) : ℚ))]
    else []
  | none => []

/-- Frame loop of `midi_notes_to_intervals` (note_utils.py lines 47-81).
A frame is `(note?, confidence)`; `i` is the frame index; `cur` is the
open accumulator `(current_note, start_frame)` if any.  The pitch-change
threshold `0.5` semitones is hard-coded as in the source, and the
representative pitch of an accumulator is never updated. -/
def mniLoop (fd minDur thr : ℚ) :
    List (Option ℚ × ℚ) → ℕ → Option (ℚ × ℕ) → List (ℚ × ℚ × ℚ)
  | [], i, cur => closeAcc fd minDur i cur
  | (none, _) :: rest, i, cur =>
    closeAcc fd minDur i cur ++ mniLoop fd minDur thr rest (i + 1) none
  | (some v, conf) :: rest, i, none =>
    if thr ≤ conf then
      mniLoop fd minDur thr rest (i + 1) (some (v, i))
    else
      closeAcc fd minDur i none ++ mniLoop fd minDur thr rest (i + 1) none
  | (some v, conf) :: rest, i, some (c, s) =>
    if thr ≤ conf then
      if (1:ℚ)/2 ≤ |v - c| then
        closeAcc fd minDur i (some (c, s))
          ++ mniLoop fd minDur thr rest (i + 1) (some (v, i))
      else
        mniLoop fd minDur thr rest (i + 1) (some (c, s))
    else
      closeAcc fd minDur i (some (c, s)) ++ mniLoop fd minDur thr rest (i + 1) none

/-- Model of `note_utils.midi_notes_to_intervals`.  The two input arrays
`midi_notes` and `confidence` are given zipped as one frame list, and
`frame_duration = hop_length / sr`. -/
def midi_notes_to_intervals (frames : List (Option ℚ × ℚ))
    (sr hop_length minDur thr : ℚ) : List (ℚ × ℚ × ℚ) :=
  mniLoop (hop_length / sr) minDur thr frames 0 none

/-- Note event emitted by `cluster_notes_with_confidence`
(pitch_extraction.py dataclass NoteEvent). -/
structure NoteEvent where
  start_time : ℚ
  end_time : ℚ
  midi_note : ℚ
  velocity : ℤ := 100
  confidence : ℚ := 1
deriving DecidableEq

/-- Accumulator-pitch update of `cluster_notes_with_confidence`
(pitch_extraction.py line 230): the representative pitch becomes the
running mean weighted by frame count. -/
def clusterUpdate (c : ℚ) (k : ℕ) (v : ℚ) : ℚ := (c * k + v) / (k + 1)

/-- Closing the open accumulator of `cluster_notes_with_confidence` at
time `t`: emit the note when its duration reaches `min_note_length`;
confidence is the mean of the folded confidences. -/
def closeCluster (minLen : ℚ) (t : ℚ) : Option (ℚ × ℚ × ℚ × ℕ) → List NoteEvent
  | some (c, t0, cs, k) =>
    if minLen ≤ t - t0 then
      [{ start_time := t0, end_time := t, midi_note := c, confidence := cs / (k : ℚ) }]
    else []
  | none => []

/-- Frame loop of `cluster_notes_with_confidence`
(pitch_extraction.py lines 186-246).  A frame is `(t, note?, conf)`;
`cur` is `(current_note, note_start_time, confidence_sum, frame_count)`;
`tLast` is `time_axis[-1]`, used to close the final accumulator. -/
def clusterLoop (centTol minLen thr tLast : ℚ) :
    List (ℚ × Option ℚ × ℚ) → Option (ℚ × ℚ × ℚ × ℕ) → List NoteEvent
  | [], cur => closeCluster minLen tLast cur
  | (t, none, _) :: rest, cur =>
    closeCluster minLen t cur ++ clusterLoop centTol minLen thr tLast rest none
  | (t, some v, conf) :: rest, none =>
    if conf < thr then
      closeCluster minLen t none ++ clusterLoop centTol minLen thr tLast rest none
    else
      clusterLoop centTol minLen thr tLast rest (some (v, t, conf, 1))
  | (t, some v, conf) :: rest, some (c, t0, cs, k) =>
    if conf < thr then
      closeCluster minLen t (some (c, t0, cs, k))
        ++ clusterLoop centTol minLen thr tLast rest none
    else if centTol < |100 * (v - c)| then
      closeCluster minLen t (some (c, t0, cs, k))
        ++ clusterLoop centTol minLen thr tLast rest (some (v, t, conf, 1))
    else
      clusterLoop centTol minLen thr tLast rest
        (some (clusterUpdate c k v, t0, cs + conf, k + 1))

/-- Segmentation core of `cluster_notes_with_confidence`: the loop over
`zip(time_axis, midi_smooth, confidence_values)` producing the initial
note events (before `merge_short_notes` / `smooth_vibrato`). -/
def cluster_segment_core (centTol minLen thr : ℚ)
    (frames : List (ℚ × Option ℚ × ℚ)) : List NoteEvent :=
  clusterLoop centTol minLen thr ((frames.map (fun f => f.1)).getLastD 0) frames none

/-- Loop of `note_utils.merge_short_notes` (lines 206-241).  `acc` is
`merged_notes` in reverse (head = most recently accepted note); `rest`
is the unprocessed suffix of `sorted_notes`.  Each iteration consumes
exactly one element of `rest`, so `fuel = rest.length` is exact; the
fuel-exhausted branch is unreachable under that discipline. -/
def mergeLoop (minDur tol : ℚ) :
    ℕ → List (ℚ × ℚ × ℚ) → List (ℚ × ℚ × ℚ) → List (ℚ × ℚ × ℚ)
  | _, acc, [] => acc.reverse
  | 0, acc, _ :: _ => acc.reverse
  | fuel + 1, prev :: accT, (s, e, p) :: tail =>
    if e - s < minDur then
      if |p - prev.2.2| ≤ tol / 100 then
        mergeLoop minDur tol fuel
          ((prev.1, e,
            (prev.2.2 * (prev.2.1 - prev.1) + p * (e - s)) /
              (prev.2.1 - prev.1 + (e - s))) :: accT) tail
      else
        mergeLoop minDur tol fuel (prev :: accT) tail
    else
      mergeLoop minDur tol fuel ((s, e, p) :: prev :: accT) tail
  | fuel + 1, [], (s, e, p) :: nx :: tail2 =>
    if e - s < minDur then
      if |p - nx.2.2| ≤ tol / 100 then
        mergeLoop minDur tol fuel []
          ((s, nx.2.1,
            (p * (e - s) + nx.2.2 * (nx.2.1 - nx.1)) /
              (e - s + (nx.2.1 - nx.1))) :: tail2)
      else
        mergeLoop minDur tol fuel [] (nx :: tail2)
    else
      mergeLoop minDur tol fuel [(s, e, p)] (nx :: tail2)
  | fuel + 1, [], (s, e, p) :: [] =>
    if e - s < minDur then []
    else
      mergeLoop minDur tol fuel [(s, e, p)] []

/-- Model of `note_utils.merge_short_notes`. -/
def merge_short_notes (notes : List (ℚ × ℚ × ℚ)) (minDur tol : ℚ) : List (ℚ × ℚ × ℚ) :=
  mergeLoop minDur tol (sortNotes notes).length [] (sortNotes notes)

/-- Maximum of a pitch list, as Python's `max` on a nonempty list. -/
def listMax : List ℚ → ℚ
  | [] => 0
  | x :: xs => xs.foldl max x

/-- Minimum of a pitch list, as Python's `min` on a nonempty list. -/
def listMin : List ℚ → ℚ
  | [] => 0
  | x :: xs => xs.foldl min x

/-- Loop of `note_utils.smooth_vibrato` (lines 268-299).  The window
collects the consecutive notes whose start lies before
`current_start + time_window`; when there are at least two and their
pitch range (in cents) is within tolerance they are collapsed into one
duration-weighted note.  Each iteration consumes at least one element,
so `fuel = list.length` suffices. -/
def smoothLoop (window tol : ℚ) : ℕ → List (ℚ × ℚ × ℚ) → List (ℚ × ℚ × ℚ)
  | _, [] => []
  | 0, _ :: _ => []
  | fuel + 1, n :: rest =>
    let ws := List.takeWhile (fun m => decide (m.1 < n.1 + window)) (n :: rest)
    if 1 < ws.length ∧ (listMax (ws.map (fun m => m.2.2)) - listMin (ws.map (fun m => m.2.2))) * 100 ≤ tol then
      (ws.headI.1, (ws.getLastD (0, 0, 0)).2.1,
        (ws.map (fun m => (m.2.1 - m.1) * m.2.2)).sum /
          (ws.map (fun m => m.2.1 - m.1)).sum)
        :: smoothLoop window tol fuel (rest.drop (ws.length - 1))
    else
      n :: smoothLoop window tol fuel rest

/-- Model of `note_utils.smooth_vibrato`. -/
def smooth_vibrato (notes : List (ℚ × ℚ × ℚ)) (window tol : ℚ) : List (ℚ × ℚ × ℚ) :=
  smoothLoop window tol (sortNotes notes).length (sortNotes notes)

/-- Whisper text segment `{"start", "end", "text"}` (read-only input of
`match_segments_and_notes`). -/
structure TextSegment where
  start : ℚ
  stop : ℚ
  text : String
deriving DecidableEq

/-- Matched record built by `match_segments_and_notes`: the text
segment, the note triple `(start, end, note)` and the overlap bounds. -/
structure MatchedRecord where
  text_segment : TextSegment
  note_segment : ℚ × ℚ × ℚ
  overlap_start : ℚ
  overlap_end : ℚ
deriving DecidableEq

/-- Stable sort of text segments by start time: model of
`sorted(segments, key=lambda x: x["start"])`. -/
def sortSegments (segments : List TextSegment) : List TextSegment :=
  List.insertionSort (fun a b => a.start ≤ b.start) segments

instance : IsTotal TextSegment (fun a b => a.start ≤ b.start) :=
  ⟨fun a b => le_total a.start b.start⟩
instance : IsTrans TextSegment (fun a b => a.start ≤ b.start) :=
  ⟨fun _ _ _ h h' => le_trans h h'⟩

/-- Pointer-advance rule of the aligner's two-pointer sweep
(note_utils.py lines 166-169): `w_end < n_end` advances the text
pointer `i`, otherwise (ties included) the note pointer `j`. -/
def matchAdvance (w : TextSegment) (n : ℚ × ℚ × ℚ) (i j : ℕ) : ℕ × ℕ :=
  if w.stop < n.2.1 then (i + 1, j) else (i, j + 1)

/-- Two-pointer sweep of `match_segments_and_notes` (lines 145-169).
The loop state is carried as the two unprocessed suffixes
`segments_sorted[i:]` and `notes_sorted[j:]`; the loop runs while both
are nonempty, emits the overlap record when
`overlap_start < overlap_end`, and advances the pointer given by
`matchAdvance` (text if its interval ends strictly first, else note).
Each step advances `i + j` by one, so
`fuel = segments.length + notes.length` suffices. -/
def matchAux : ℕ → List TextSegment → List (ℚ × ℚ × ℚ) → List MatchedRecord
  | 0, _, _ => []
  | _ + 1, [], _ => []
  | _ + 1, _ :: _, [] => []
  | fuel + 1, w :: wt, n :: nt =>
    (if max w.start n.1 < min w.stop n.2.1 then
      [{ text_segment := w, note_segment := n,
         overlap_start := max w.start n.1, overlap_end := min w.stop n.2.1 }]
     else [])
      ++ (if w.stop < n.2.1 then matchAux fuel wt (n :: nt)
          else matchAux fuel (w :: wt) nt)

/-- Model of `note_utils.match_segments_and_notes`: both inputs are
sorted by start time, then swept. -/
def match_segments_and_notes (segments : List TextSegment)
    (notes : List (ℚ × ℚ × ℚ)) : List MatchedRecord :=
  matchAux (segments.length + notes.length)
    (sortSegments segments) (sortNotes notes)

/-- Serializer selected by `export_segments`. -/
inductive ExportFormat
  | midi
  | json
  | csv
deriving DecidableEq

/-- Format dispatch of `generate_midi_with_lyrics.export_segments`
(lines 155-164): the serializer chosen for a format string, or the
`ValueError` raised before anything is written. -/
def export_segments (format : String) : Except String ExportFormat :=
  if format = "midi" then .ok .midi
  else if format = "json" then .ok .json
  else if format = "csv" then .ok .csv
  else .error ("Unsupported format: " ++ format)

/-- Frame `k` of the frame list `F` exists and passes the voicing gate
of `midi_notes_to_intervals` (confidence at or above threshold, pitch
defined). -/
def VoicedAt (thr : ℚ) (F : List (Option ℚ × ℚ)) (k : ℕ) : Prop :=
  ∃ f, F[k]? = some f ∧ thr ≤ f.2 ∧ f.1.isSome

/-- Arithmetic mean of a list of rationals. -/
def listMean (l : List ℚ) : ℚ := l.sum / (l.length : ℚ)

/-! ### Helper lemmas -/

theorem sortNotes_idem (l : List (ℚ × ℚ × ℚ)) : sortNotes (sortNotes l) = sortNotes l :=
  (List.sorted_insertionSort _ l).insertionSort_eq

theorem sortSegments_idem (l : List TextSegment) :
    sortSegments (sortSegments l) = sortSegments l :=
  (List.sorted_insertionSort _ l).insertionSort_eq

theorem sortNotes_length (l : List (ℚ × ℚ × ℚ)) : (sortNotes l).length = l.length :=
  List.length_insertionSort _ l

theorem sortSegments_length (l : List TextSegment) :
    (sortSegments l).length = l.length :=
  List.length_insertionSort _ l

theorem mem_sortNotes {l : List (ℚ × ℚ × ℚ)} {x : ℚ × ℚ × ℚ} :
    x ∈ sortNotes l ↔ x ∈ l :=
  List.mem_insertionSort _

/-- Everything `matchAux` emits carries its own overlap bounds computed
as `max` of the starts and `min` of the ends, and they are strictly
ordered. -/
theorem matchAux_mem_overlap :
    ∀ (fuel : ℕ) (ws : List TextSegment) (ns : List (ℚ × ℚ × ℚ))
      (r : MatchedRecord), r ∈ matchAux fuel ws ns →
      r.overlap_start = max r.text_segment.start r.note_segment.1
        ∧ r.overlap_end = min r.text_segment.stop r.note_segment.2.1
        ∧ r.overlap_start < r.overlap_end
  | 0, _, _, _, h => absurd h (by simp [matchAux])
  | _ + 1, [], _, _, h => absurd h (by simp [matchAux])
  | _ + 1, _ :: _, [], _, h => absurd h (by simp [matchAux])
  | fuel + 1, w :: wt, n :: nt, r, h => by
    rw [matchAux] at h
    rcases List.mem_append.1 h with h1 | h2
    · by_cases hov : max w.start n.1 < min w.stop n.2.1
      · rw [if_pos hov] at h1
        rcases List.mem_singleton.1 h1 with rfl
        exact ⟨rfl, rfl, hov⟩
      · rw [if_neg hov] at h1
        exact absurd h1 (List.not_mem_nil r)
    · by_cases hadv : w.stop < n.2.1
      · rw [if_pos hadv] at h2
        exact matchAux_mem_overlap fuel wt (n :: nt) r h2
      · rw [if_neg hadv] at h2
        exact matchAux_mem_overlap fuel (w :: wt) nt r h2

/-! ### Claim theorems -/

/-- C8.  Any format string besides the supported "midi", "json" and
"csv" makes `export_segments` raise (modelled as `Except.error`), so no
serializer is ever selected and nothing is written; an unknown format is
never a silent no-op. -/
theorem C8_unknown_format_error (format : String)
    (h1 : format ≠ "midi") (h2 : format ≠ "json") (h3 : format ≠ "csv") :
    export_segments format = .error ("Unsupported format: " ++ format) := by
  simp [export_segments, h1, h2, h3]

/-- C8 witness: the format "wav" is rejected with an error. -/
theorem C8_witness :
    export_segments "wav" = .error ("Unsupported format: " ++ "wav") :=
  C8_unknown_format_error "wav" (by decide) (by decide) (by decide)

/-- C5.  One step of the aligner sweep at pointer state `(i, j)` (the
suffixes from `i` and `j` being nonempty) emits at most one record and
continues at the pointer state `matchAdvance w n i j`; the text pointer
advances exactly when the current text segment ends strictly before the
current note, otherwise — ties included — the note pointer advances,
each step increments exactly one pointer by one and never rewinds
either. -/
theorem C5_advance_rule (segments : List TextSegment)
    (notes : List (ℚ × ℚ × ℚ)) (fuel i j : ℕ) (w : TextSegment)
    (wt : List TextSegment) (n : ℚ × ℚ × ℚ) (nt : List (ℚ × ℚ × ℚ))
    (hw : segments.drop i = w :: wt) (hn : notes.drop j = n :: nt) :
    (matchAux (fuel + 1) (segments.drop i) (notes.drop j)
        = (if max w.start n.1 < min w.stop n.2.1 then
            [{ text_segment := w, note_segment := n,
               overlap_start := max w.start n.1,
               overlap_end := min w.stop n.2.1 }]
           else [])
          ++ matchAux fuel (segments.drop (matchAdvance w n i j).1)
              (notes.drop (matchAdvance w n i j).2))
      ∧ (matchAdvance w n i j = (i + 1, j) ↔ w.stop < n.2.1)
      ∧ (w.stop = n.2.1 → matchAdvance w n i j = (i, j + 1))
      ∧ i ≤ (matchAdvance w n i j).1 ∧ j ≤ (matchAdvance w n i j).2
      ∧ (matchAdvance w n i j).1 + (matchAdvance w n i j).2 = i + j + 1 := by
  have hdw : segments.drop (i + 1) = wt := by
    rw [← List.drop_drop, hw]; rfl
  have hdn : notes.drop (j + 1) = nt := by
    rw [← List.drop_drop, hn]; rfl
  by_cases hlt : w.stop < n.2.1
  · have ha : matchAdvance w n i j = (i + 1, j) := if_pos hlt
    refine ⟨?_, ?_, ?_, ?_, ?_, ?_⟩
    · rw [hw, hn, matchAux, ha, if_pos hlt, hdw, hn]
    · exact ⟨fun _ => hlt, fun _ => ha⟩
    · intro hEq; exact absurd (hEq ▸ hlt) (lt_irrefl _)
    · simp [ha]
    · simp [ha]
    · simp [ha]; omega
  · have ha : matchAdvance w n i j = (i, j + 1) := if_neg hlt
    refine ⟨?_, ?_, ?_, ?_, ?_, ?_⟩
    · rw [hw, hn, matchAux, ha, if_neg hlt, hdn, hw]
    · simp only [ha, Prod.ext_iff]
      constructor
      · intro hEq; omega
      · intro hc; exact absurd hc hlt
    · intro _; exact ha
    · simp [ha]
    · simp [ha]
    · simp [ha]; omega

/-- C5 witness: a concrete sweep step with an exact tie
(`w.stop = n.end = 2`) advances the note pointer. -/
theorem C5_witness :
    matchAux 2 (List.drop 0 [(⟨1, 2, "la"⟩ : TextSegment)]) (List.drop 0 [((3/2 : ℚ), 2, 67)])
        = (if max (1:ℚ) (3/2) < min 2 2 then
            [{ text_segment := ⟨1, 2, "la"⟩, note_segment := (3/2, 2, 67),
               overlap_start := max 1 (3/2), overlap_end := min 2 2 }]
           else [])
          ++ matchAux 1
              (List.drop (matchAdvance ⟨1, 2, "la"⟩ ((3/2 : ℚ), 2, 67) 0 0).1 [(⟨1, 2, "la"⟩ : TextSegment)])
              (List.drop (matchAdvance ⟨1, 2, "la"⟩ ((3/2 : ℚ), 2, 67) 0 0).2 [((3/2 : ℚ), 2, 67)])
      ∧ (matchAdvance ⟨1, 2, "la"⟩ ((3/2 : ℚ), 2, 67) 0 0 = (1, 0) ↔ (2:ℚ) < 2)
      ∧ ((2:ℚ) = 2 → matchAdvance ⟨1, 2, "la"⟩ ((3/2 : ℚ), 2, 67) 0 0 = (0, 1)) := by
  have h := C5_advance_rule [(⟨1, 2, "la"⟩ : TextSegment)] [((3/2 : ℚ), 2, 67)] 1 0 0
    ⟨1, 2, "la"⟩ [] ((3/2 : ℚ), 2, 67) [] rfl rfl
  exact ⟨h.1, h.2.1, h.2.2.1⟩

/-- C4.  Every matched record emitted by the aligner has
`overlap_start = max(text.start, note.start)`,
`overlap_end = min(text.end, note.end)` and `overlap_start < overlap_end`;
a pair whose computed overlap is empty or negative is never emitted. -/
theorem C4_overlap_invariant (segments : List TextSegment)
    (notes : List (ℚ × ℚ × ℚ)) (r : MatchedRecord)
    (h : r ∈ match_segments_and_notes segments notes) :
    r.overlap_start = max r.text_segment.start r.note_segment.1
      ∧ r.overlap_end = min r.text_segment.stop r.note_segment.2.1
      ∧ r.overlap_start < r.overlap_end :=
  matchAux_mem_overlap _ _ _ r h

/-- C4 witness: spec Example 2, text segment `(1.0, 2.0, "la")` against
note `(1.5, 1.8, 67)`, yields the record with overlap `(1.5, 1.8)`,
which satisfies the invariant. -/
theorem C4_witness :
    (⟨⟨1, 2, "la"⟩, ((3/2 : ℚ), 9/5, 67), 3/2, 9/5⟩ : MatchedRecord)
        ∈ match_segments_and_notes [⟨1, 2, "la"⟩] [(3/2, 9/5, 67)]
      ∧ ((3/2 : ℚ) = max 1 (3/2) ∧ (9/5 : ℚ) = min 2 (9/5) ∧ (3/2 : ℚ) < 9/5) := by
  have hmem : (⟨⟨1, 2, "la"⟩, ((3/2 : ℚ), 9/5, 67), 3/2, 9/5⟩ : MatchedRecord)
      ∈ match_segments_and_notes [⟨1, 2, "la"⟩] [(3/2, 9/5, 67)] := by
    norm_num [match_segments_and_notes, sortSegments, sortNotes, List.insertionSort,
      List.orderedInsert, matchAux]
  exact ⟨hmem, C4_overlap_invariant _ _ _ hmem⟩

/-- C10 counterexample: the aligner is not invariant under permutation
of its text-segment list.  Two segments share start time 0; swapping
them changes which one the stable sort places first, and the sweep
emits two records in one order but only one in the other. -/
theorem C10_counterexample :
    match_segments_and_notes [⟨0, 1, "a"⟩, ⟨0, 2, "b"⟩] [(0, 3/2, 60)]
        = [⟨⟨0, 1, "a"⟩, (0, 3/2, 60), 0, 1⟩, ⟨⟨0, 2, "b"⟩, (0, 3/2, 60), 0, 3/2⟩]
      ∧ match_segments_and_notes [⟨0, 2, "b"⟩, ⟨0, 1, "a"⟩] [(0, 3/2, 60)]
        = [⟨⟨0, 2, "b"⟩, (0, 3/2, 60), 0, 3/2⟩]
      ∧ match_segments_and_notes [⟨0, 1, "a"⟩, ⟨0, 2, "b"⟩] [(0, 3/2, 60)]
        ≠ match_segments_and_notes [⟨0, 2, "b"⟩, ⟨0, 1, "a"⟩] [(0, 3/2, 60)] := by
  refine ⟨?_, ?_, ?_⟩
  · norm_num [match_segments_and_notes, sortSegments, sortNotes, List.insertionSort,
      List.orderedInsert, matchAux]
  · norm_num [match_segments_and_notes, sortSegments, sortNotes, List.insertionSort,
      List.orderedInsert, matchAux]
  · norm_num [match_segments_and_notes, sortSegments, sortNotes, List.insertionSort,
      List.orderedInsert, matchAux]

/-- C10, amended.  The aligner's result is unchanged when its inputs are
replaced by their stable sorts by start time (so a sorted-input
precondition is not needed for the result to be well-defined); full
permutation invariance fails only when ties in start time are reordered
(see the counterexample). -/
theorem C10_sort_invariance (segments : List TextSegment)
    (notes : List (ℚ × ℚ × ℚ)) :
    match_segments_and_notes segments notes
      = match_segments_and_notes (sortSegments segments) (sortNotes notes) := by
  unfold match_segments_and_notes
  rw [sortSegments_idem, sortNotes_idem, sortSegments_length, sortNotes_length]

/-- Membership in a closed accumulator emission of
`midi_notes_to_intervals`: the emitted interval is exactly
`(start_frame*fd, i*fd, round(c))` and its frame span passed the
minimum-duration gate. -/
theorem closeAcc_mem {fd minDur : ℚ} {i : ℕ} {c : ℚ} {s : ℕ} {x : ℚ × ℚ × ℚ}
    (h : x ∈ closeAcc fd minDur i (some (c, s))) :
    x = ((s : ℚ) * fd, (i : ℚ) * fd, ((pyRound c : ℤ) : ℚ))
      ∧ minDur ≤ ((i - s : ℕ) : ℚ) * fd := by
  rw [closeAcc] at h
  by_cases hd : minDur ≤ ((i - s : ℕ) : ℚ) * fd
  · rw [if_pos hd] at h
    exact ⟨List.mem_singleton.mp h, hd⟩
  · rw [if_neg hd] at h
    exact absurd h (List.not_mem_nil x)

/-- Every interval emitted by the `midi_notes_to_intervals` loop comes
from a frame run `[s', e')` of voiced frames whose duration
`(e' - s')*fd` passed the minimum-duration gate; the interval's bounds
are `s'*fd` and `e'*fd`. -/
theorem mniLoop_emitted_run (fd minDur thr : ℚ) (F : List (Option ℚ × ℚ)) :
    ∀ (frames : List (Option ℚ × ℚ)) (i : ℕ) (cur : Option (ℚ × ℕ)),
      frames = F.drop i →
      (∀ c s, cur = some (c, s) → s ≤ i ∧ ∀ k, s ≤ k → k < i → VoicedAt thr F k) →
      ∀ x ∈ mniLoop fd minDur thr frames i cur,
        ∃ s' e' : ℕ, x.1 = (s' : ℚ) * fd ∧ x.2.1 = (e' : ℚ) * fd ∧ s' ≤ e'
          ∧ minDur ≤ ((e' - s' : ℕ) : ℚ) * fd
          ∧ ∀ k, s' ≤ k → k < e' → VoicedAt thr F k := by
  intro frames
  induction frames with
  | nil =>
    intro i cur hdrop hinv x hx
    rw [mniLoop] at hx
    match cur, hx with
    | none, hx => exact absurd hx (List.not_mem_nil x)
    | some (c, s), hx =>
      obtain ⟨hs, hrun⟩ := hinv c s rfl
      obtain ⟨hxeq, hxdur⟩ := closeAcc_mem hx
      exact ⟨s, i, by rw [hxeq], by rw [hxeq], hs, hxdur, hrun⟩
  | cons f rest ih =>
    intro i cur hdrop hinv x hx
    have hfi : F[i]? = some f := by
      have h0 : (F.drop i)[0]? = some f := by rw [← hdrop]; simp
      rw [List.getElem?_drop] at h0
      simpa using h0
    have hrest : rest = F.drop (i + 1) := by
      rw [← List.drop_drop, ← hdrop]
      rfl
    obtain ⟨o, conf⟩ := f
    cases o with
    | none =>
      rw [mniLoop] at hx
      rcases List.mem_append.1 hx with h1 | h2
      · cases cur with
        | none => rw [closeAcc] at h1; exact absurd h1 (List.not_mem_nil x)
        | some cs =>
          obtain ⟨c, s⟩ := cs
          obtain ⟨hs, hrun⟩ := hinv c s rfl
          obtain ⟨hxeq, hxdur⟩ := closeAcc_mem h1
          exact ⟨s, i, by rw [hxeq], by rw [hxeq], hs, hxdur, hrun⟩
      · exact ih (i + 1) none hrest (fun c s hcs => by cases hcs) x h2
    | some v =>
      have hvoiced : thr ≤ conf → VoicedAt thr F i :=
        fun hconf => ⟨(some v, conf), hfi, hconf, rfl⟩
      have hnewinv : thr ≤ conf →
          ∀ c s, some (v, i) = some (c, s) →
            s ≤ i + 1 ∧ ∀ k, s ≤ k → k < i + 1 → VoicedAt thr F k := by
        intro hconf c s hcs
        obtain ⟨rfl, rfl⟩ : v = c ∧ i = s := by
          constructor <;> (cases hcs; rfl)
        refine ⟨Nat.le_succ i, fun k hk1 hk2 => ?_⟩
        have hk : k = i := by omega
        exact hk ▸ hvoiced hconf
      cases cur with
      | none =>
        rw [mniLoop] at hx
        by_cases hconf : thr ≤ conf
        · rw [if_pos hconf] at hx
          exact ih (i + 1) (some (v, i)) hrest (hnewinv hconf) x hx
        · rw [if_neg hconf] at hx
          rcases List.mem_append.1 hx with h1 | h2
          · rw [closeAcc] at h1; exact absurd h1 (List.not_mem_nil x)
          · exact ih (i + 1) none hrest (fun c s hcs => by cases hcs) x h2
      | some cs =>
        obtain ⟨c, s⟩ := cs
        obtain ⟨hs, hrun⟩ := hinv c s rfl
        have hcloseE : ∀ y, y ∈ closeAcc fd minDur i (some (c, s)) →
            ∃ s' e' : ℕ, y.1 = (s' : ℚ) * fd ∧ y.2.1 = (e' : ℚ) * fd ∧ s' ≤ e'
              ∧ minDur ≤ ((e' - s' : ℕ) : ℚ) * fd
              ∧ ∀ k, s' ≤ k → k < e' → VoicedAt thr F k := by
          intro y hy
          obtain ⟨hyeq, hydur⟩ := closeAcc_mem hy
          exact ⟨s, i, by rw [hyeq], by rw [hyeq], hs, hydur, hrun⟩
        rw [mniLoop] at hx
        by_cases hconf : thr ≤ conf
        · rw [if_pos hconf] at hx
          by_cases hjump : (1:ℚ)/2 ≤ |v - c|
          · rw [if_pos hjump] at hx
            rcases List.mem_append.1 hx with h1 | h2
            · exact hcloseE x h1
            · exact ih (i + 1) (some (v, i)) hrest (hnewinv hconf) x h2
          · rw [if_neg hjump] at hx
            refine ih (i + 1) (some (c, s)) hrest ?_ x hx
            intro c' s' hcs
            obtain ⟨rfl, rfl⟩ : c = c' ∧ s = s' := by
              constructor <;> (cases hcs; rfl)
            refine ⟨le_trans hs (Nat.le_succ i), fun k hk1 hk2 => ?_⟩
            by_cases hki : k < i
            · exact hrun k hk1 hki
            · have hk : k = i := by omega
              exact hk ▸ hvoiced hconf
        · rw [if_neg hconf] at hx
          rcases List.mem_append.1 hx with h1 | h2
          · exact hcloseE x h1
          · exact ih (i + 1) none hrest (fun c s hcs => by cases hcs) x h2

/-- Membership in a closed accumulator emission of the clustering loop:
the emitted event spans exactly `(t0, t)` and passed the
minimum-note-length gate. -/
theorem closeCluster_mem {minLen t c t0 cs : ℚ} {k : ℕ} {ev : NoteEvent}
    (h : ev ∈ closeCluster minLen t (some (c, t0, cs, k))) :
    ev.start_time = t0 ∧ ev.end_time = t ∧ minLen ≤ t - t0 := by
  rw [closeCluster] at h
  by_cases hd : minLen ≤ t - t0
  · rw [if_pos hd] at h
    rw [List.mem_singleton.mp h]
    exact ⟨rfl, rfl, hd⟩
  · rw [if_neg hd] at h
    exact absurd h (List.not_mem_nil ev)

/-- Every event emitted by the clustering loop of
`cluster_notes_with_confidence` has duration at least the minimum note
length: every emission is guarded by that very check. -/
theorem clusterLoop_min_duration (centTol minLen thr tLast : ℚ) :
    ∀ (frames : List (ℚ × Option ℚ × ℚ)) (cur : Option (ℚ × ℚ × ℚ × ℕ)),
      ∀ ev ∈ clusterLoop centTol minLen thr tLast frames cur,
        minLen ≤ ev.end_time - ev.start_time := by
  intro frames
  induction frames with
  | nil =>
    intro cur ev hev
    rw [clusterLoop] at hev
    match cur, hev with
    | none, hev => exact absurd hev (List.not_mem_nil ev)
    | some (c, t0, cs, k), hev =>
      obtain ⟨h1, h2, h3⟩ := closeCluster_mem hev
      rw [h1, h2]; exact h3
  | cons f rest ih =>
    intro cur ev hev
    obtain ⟨t, o, conf⟩ := f
    have hcloseE : ∀ y ∈ closeCluster minLen t cur,
        minLen ≤ y.end_time - y.start_time := by
      intro y hy
      match cur, hy with
      | none, hy => exact absurd hy (List.not_mem_nil y)
      | some (c, t0, cs, k), hy =>
        obtain ⟨h1, h2, h3⟩ := closeCluster_mem hy
        rw [h1, h2]; exact h3
    cases o with
    | none =>
      rw [clusterLoop] at hev
      rcases List.mem_append.1 hev with h1 | h2
      · exact hcloseE ev h1
      · exact ih none ev h2
    | some v =>
      cases cur with
      | none =>
        rw [clusterLoop] at hev
        by_cases hconf : conf < thr
        · rw [if_pos hconf] at hev
          rcases List.mem_append.1 hev with h1 | h2
          · rw [closeCluster] at h1; exact absurd h1 (List.not_mem_nil ev)
          · exact ih none ev h2
        · rw [if_neg hconf] at hev
          exact ih (some (v, t, conf, 1)) ev hev
      | some st =>
        obtain ⟨c, t0, cs, k⟩ := st
        rw [clusterLoop] at hev
        by_cases hconf : conf < thr
        · rw [if_pos hconf] at hev
          rcases List.mem_append.1 hev with h1 | h2
          · obtain ⟨h1a, h1b, h1c⟩ := closeCluster_mem h1
            rw [h1a, h1b]; exact h1c
          · exact ih none ev h2
        · rw [if_neg hconf] at hev
          by_cases hjump : centTol < |100 * (v - c)|
          · rw [if_pos hjump] at hev
            rcases List.mem_append.1 hev with h1 | h2
            · obtain ⟨h1a, h1b, h1c⟩ := closeCluster_mem h1
              rw [h1a, h1b]; exact h1c
            · exact ih (some (v, t, conf, 1)) ev h2
          · rw [if_neg hjump] at hev
            exact ih (some (clusterUpdate c k v, t0, cs + conf, k + 1)) ev hev

/-- C1 counterexample: on the spec's example frames
`[(0.0, 60.0, 0.9), (0.1, 60.2, 0.9), (0.2, 65.0, 0.9)]` (hop 0.1 s,
threshold 0.5, min-duration 0.05 s), `midi_notes_to_intervals` emits the
two claimed spans `(0.0, 0.2)` and `(0.2, 0.3)` but the first note's
pitch is 60 — the rounded FIRST-frame pitch — and not the frame-weighted
mean `(60.0 + 60.2)/2 = 60.1` of its constituent frames. -/
theorem C1_counterexample :
    midi_notes_to_intervals
        [(some 60, 9/10), (some (301/5), 9/10), (some 65, 9/10)] 10 1 (1/20) (1/2)
      = [(0, 1/5, 60), (1/5, 3/10, 65)]
    ∧ (60 : ℚ) ≠ listMean [60, 301/5] := by
  constructor
  · norm_num [midi_notes_to_intervals, mniLoop, closeAcc, pyRound, abs_lt, le_abs]
  · norm_num [listMean]

/-- C1, amended.  The clustering segmenter of
`cluster_notes_with_confidence` does maintain the frame-count-weighted
running mean: folding a value `v` into an accumulator whose pitch is the
mean of its constituent values yields the mean of the extended value
list.  The interval segmenter `midi_notes_to_intervals`, which the
example's spans exercise, instead keeps the (rounded) first-frame pitch:
on the example frames it emits `(0.0-0.2, pitch 60)` and
`(0.2-0.3, pitch 65)`. -/
theorem C1_running_weighted_mean :
    (∀ (vs : List ℚ) (v : ℚ), vs ≠ [] →
        clusterUpdate (listMean vs) vs.length v = listMean (vs ++ [v]))
    ∧ midi_notes_to_intervals
        [(some 60, 9/10), (some (301/5), 9/10), (some 65, 9/10)] 10 1 (1/20) (1/2)
      = [(0, 1/5, 60), (1/5, 3/10, 65)] := by
  constructor
  · intro vs v hvs
    have h1 : (vs.length : ℚ) ≠ 0 := Nat.cast_ne_zero.mpr (List.length_pos.mpr hvs).ne'
    simp only [clusterUpdate, listMean, List.sum_append, List.length_append,
      List.sum_cons, List.sum_nil, List.length_cons, List.length_nil]
    push_cast
    field_simp
  · norm_num [midi_notes_to_intervals, mniLoop, closeAcc, pyRound, abs_lt, le_abs]

/-- C1 witness: folding pitch 65 into the accumulator holding the mean
of `[60, 60.2]` yields the mean of `[60, 60.2, 65]`. -/
theorem C1_witness :
    clusterUpdate (listMean [60, 301/5]) (List.length [(60 : ℚ), 301/5]) 65
      = listMean ([60, 301/5] ++ [65]) :=
  C1_running_weighted_mean.1 [60, 301/5] 65 (List.cons_ne_nil 60 [301/5])

/-- C2.  For the note segmenter (both `midi_notes_to_intervals` and the
clustering loop of `cluster_notes_with_confidence`), with positive
minimum duration: (1) every emitted interval has
`end - start ≥ min_duration`; (2) an entirely low-confidence or
pitch-undefined frame stream yields an empty list; (3) a stream whose
voiced runs are all shorter than the minimum duration yields an empty
list; (4) every event of the clustering segmentation core likewise has
duration at least the minimum note length. -/
theorem C2_min_duration (sr hop_length minDur thr : ℚ) (hmd : 0 < minDur) :
    (∀ (frames : List (Option ℚ × ℚ)) (x : ℚ × ℚ × ℚ),
        x ∈ midi_notes_to_intervals frames sr hop_length minDur thr →
        minDur ≤ x.2.1 - x.1)
    ∧ (∀ frames : List (Option ℚ × ℚ), (∀ f ∈ frames, f.2 < thr ∨ f.1 = none) →
        midi_notes_to_intervals frames sr hop_length minDur thr = [])
    ∧ (∀ frames : List (Option ℚ × ℚ),
        (∀ s' e' : ℕ, s' ≤ e' → (∀ k, s' ≤ k → k < e' → VoicedAt thr frames k) →
          ((e' - s' : ℕ) : ℚ) * (hop_length / sr) < minDur) →
        midi_notes_to_intervals frames sr hop_length minDur thr = [])
    ∧ (∀ (centTol : ℚ) (fs : List (ℚ × Option ℚ × ℚ)) (ev : NoteEvent),
        ev ∈ cluster_segment_core centTol minDur thr fs →
        minDur ≤ ev.end_time - ev.start_time) := by
  have master : ∀ (frames : List (Option ℚ × ℚ)) (x : ℚ × ℚ × ℚ),
      x ∈ midi_notes_to_intervals frames sr hop_length minDur thr →
      ∃ s' e' : ℕ, x.1 = (s' : ℚ) * (hop_length / sr)
        ∧ x.2.1 = (e' : ℚ) * (hop_length / sr) ∧ s' ≤ e'
        ∧ minDur ≤ ((e' - s' : ℕ) : ℚ) * (hop_length / sr)
        ∧ ∀ k, s' ≤ k → k < e' → VoicedAt thr frames k := by
    intro frames x hx
    unfold midi_notes_to_intervals at hx
    exact mniLoop_emitted_run (hop_length / sr) minDur thr frames frames 0 none
      (by rw [List.drop_zero]) (fun c s hcs => by cases hcs) x hx
  refine ⟨?_, ?_, ?_, ?_⟩
  · intro frames x hx
    obtain ⟨s', e', hx1, hx2, hse, hdur, _⟩ := master frames x hx
    calc minDur ≤ ((e' - s' : ℕ) : ℚ) * (hop_length / sr) := hdur
      _ = x.2.1 - x.1 := by rw [Nat.cast_sub hse, hx1, hx2]; ring
  · intro frames hall
    rw [List.eq_nil_iff_forall_not_mem]
    intro x hx
    obtain ⟨s', e', _, _, hse, hdur, hrun⟩ := master frames x hx
    have hne : s' < e' := by
      rcases lt_or_eq_of_le hse with h | h
      · exact h
      · rw [h, Nat.sub_self] at hdur
        norm_num at hdur
        linarith
    obtain ⟨f, hf, hconf, hsome⟩ := hrun s' le_rfl hne
    rcases hall f (List.getElem?_mem hf) with h | h
    · exact absurd hconf (not_le.mpr h)
    · rw [h] at hsome
      simp at hsome
  · intro frames hruns
    rw [List.eq_nil_iff_forall_not_mem]
    intro x hx
    obtain ⟨s', e', _, _, hse, hdur, hrun⟩ := master frames x hx
    exact absurd hdur (not_le.mpr (hruns s' e' hse hrun))
  · intro centTol fs ev hev
    unfold cluster_segment_core at hev
    exact clusterLoop_min_duration centTol minDur thr _ fs none ev hev

/-- C2 witness: with threshold 0.5 and minimum duration 0.1 s, a single
low-confidence frame yields no intervals — an instance of part (2). -/
theorem C2_witness :
    midi_notes_to_intervals [(some 60, 0)] 10 1 (1/10) (1/2) = [] := by
  refine (C2_min_duration 10 1 (1/10) (1/2) (by norm_num)).2.1 [(some 60, 0)] ?_
  intro f hf
  rw [List.mem_singleton] at hf
  rw [hf]
  left
  norm_num

/-- Main invariant of the `merge_short_notes` loop.  If the accepted
notes (`acc`, reversed) all have duration at least `minDur`, are
positive and mutually non-overlapping, every accepted end precedes every
pending start, and the pending notes (`rest`) are positive and
non-overlapping in order, then every note the loop returns has duration
at least `minDur` and is positive, and the returned list is
non-overlapping in order. -/
theorem mergeLoop_invariant (minDur tol : ℚ) :
    ∀ (fuel : ℕ) (acc rest : List (ℚ × ℚ × ℚ)),
      rest.length ≤ fuel →
      (∀ x ∈ acc, minDur ≤ x.2.1 - x.1 ∧ x.1 < x.2.1) →
      List.Pairwise (fun a b => b.2.1 ≤ a.1) acc →
      (∀ x ∈ acc, ∀ r ∈ rest, x.2.1 ≤ r.1) →
      (∀ r ∈ rest, r.1 < r.2.1) →
      List.Pairwise (fun a b => a.2.1 ≤ b.1) rest →
      (∀ x ∈ mergeLoop minDur tol fuel acc rest, minDur ≤ x.2.1 - x.1 ∧ x.1 < x.2.1)
        ∧ List.Pairwise (fun a b => a.2.1 ≤ b.1) (mergeLoop minDur tol fuel acc rest) := by
  intro fuel
  induction fuel with
  | zero =>
    intro acc rest hlen Hacc HaccPW Hsep Hrest HrestPW
    have hrest0 : rest = [] := List.length_eq_zero.mp (Nat.le_zero.mp hlen)
    subst hrest0
    rw [mergeLoop]
    exact ⟨fun x hx => Hacc x (List.mem_reverse.mp hx),
      List.pairwise_reverse.mpr HaccPW⟩
  | succ fuel ih =>
    intro acc rest hlen Hacc HaccPW Hsep Hrest HrestPW
    cases rest with
    | nil =>
      rw [mergeLoop]
      exact ⟨fun x hx => Hacc x (List.mem_reverse.mp hx),
        List.pairwise_reverse.mpr HaccPW⟩
    | cons hd tail =>
      obtain ⟨s, e, p⟩ := hd
      have Hpos_head : s < e := Hrest (s, e, p) (List.mem_cons_self _ _)
      have Hrest_tail : ∀ r ∈ tail, r.1 < r.2.1 :=
        fun r hr => Hrest r (List.mem_cons_of_mem _ hr)
      have HrestPW_head : ∀ r ∈ tail, e ≤ r.1 :=
        (List.pairwise_cons.mp HrestPW).1
      have HrestPW_tail := (List.pairwise_cons.mp HrestPW).2
      have hlen' : tail.length ≤ fuel := by
        rw [List.length_cons] at hlen
        omega
      cases acc with
      | cons prev accT =>
        have Hacc_prev := Hacc prev (List.mem_cons_self _ _)
        have Hsep_head : prev.2.1 ≤ s :=
          Hsep prev (List.mem_cons_self _ _) (s, e, p) (List.mem_cons_self _ _)
        rw [mergeLoop]
        by_cases hshort : e - s < minDur
        · rw [if_pos hshort]
          by_cases htol : |p - prev.2.2| ≤ tol / 100
          · rw [if_pos htol]
            refine ih _ tail hlen' ?_ ?_ ?_ Hrest_tail HrestPW_tail
            · rw [List.forall_mem_cons]
              refine ⟨⟨?_, ?_⟩, fun x hx => Hacc x (List.mem_cons_of_mem _ hx)⟩
              · have h1 := Hacc_prev.1
                simp only
                linarith
              · have h2 := Hacc_prev.2
                simp only
                linarith
            · rw [List.pairwise_cons]
              exact ⟨fun b hb => (List.pairwise_cons.mp HaccPW).1 b hb,
                (List.pairwise_cons.mp HaccPW).2⟩
            · rw [List.forall_mem_cons]
              exact ⟨fun r hr => HrestPW_head r hr,
                fun x hx r hr => Hsep x (List.mem_cons_of_mem _ hx)
                  r (List.mem_cons_of_mem _ hr)⟩
          · rw [if_neg htol]
            refine ih (prev :: accT) tail hlen' Hacc HaccPW ?_ Hrest_tail HrestPW_tail
            exact fun x hx r hr => Hsep x hx r (List.mem_cons_of_mem _ hr)
        · rw [if_neg hshort]
          refine ih ((s, e, p) :: prev :: accT) tail hlen' ?_ ?_ ?_
            Hrest_tail HrestPW_tail
          · rw [List.forall_mem_cons]
            exact ⟨⟨not_lt.mp hshort, Hpos_head⟩, Hacc⟩
          · rw [List.pairwise_cons]
            exact ⟨fun b hb => Hsep b hb (s, e, p) (List.mem_cons_self _ _), HaccPW⟩
          · rw [List.forall_mem_cons]
            exact ⟨fun r hr => HrestPW_head r hr,
              fun x hx r hr => Hsep x hx r (List.mem_cons_of_mem _ hr)⟩
      | nil =>
        cases tail with
        | nil =>
          rw [mergeLoop]
          by_cases hshort : e - s < minDur
          · rw [if_pos hshort]
            exact ⟨fun x hx => absurd hx (List.not_mem_nil x), List.Pairwise.nil⟩
          · rw [if_neg hshort]
            refine ih [(s, e, p)] [] (Nat.zero_le _) ?_ ?_ ?_ ?_ List.Pairwise.nil
            · intro x hx
              rw [List.mem_singleton] at hx
              subst hx
              exact ⟨not_lt.mp hshort, Hpos_head⟩
            · exact List.pairwise_singleton _ _
            · exact fun x _ r hr => absurd hr (List.not_mem_nil r)
            · exact fun r hr => absurd hr (List.not_mem_nil r)
        | cons nx tail2 =>
          have Hpos_nx : nx.1 < nx.2.1 := Hrest_tail nx (List.mem_cons_self _ _)
          have He_nx : e ≤ nx.1 := HrestPW_head nx (List.mem_cons_self _ _)
          have Hnx_tail2 : ∀ r ∈ tail2, nx.2.1 ≤ r.1 :=
            (List.pairwise_cons.mp HrestPW_tail).1
          have HPW_tail2 := (List.pairwise_cons.mp HrestPW_tail).2
          rw [mergeLoop]
          by_cases hshort : e - s < minDur
          · rw [if_pos hshort]
            by_cases htol : |p - nx.2.2| ≤ tol / 100
            · rw [if_pos htol]
              refine ih [] _ hlen' ?_ List.Pairwise.nil ?_ ?_ ?_
              · exact fun x hx => absurd hx (List.not_mem_nil x)
              · exact fun x hx => absurd hx (List.not_mem_nil x)
              · rw [List.forall_mem_cons]
                refine ⟨?_, fun r hr => Hrest_tail r (List.mem_cons_of_mem _ hr)⟩
                simp only
                linarith
              · rw [List.pairwise_cons]
                exact ⟨fun r hr => Hnx_tail2 r hr, HPW_tail2⟩
            · rw [if_neg htol]
              refine ih [] (nx :: tail2) hlen' ?_ List.Pairwise.nil ?_
                Hrest_tail HrestPW_tail
              · exact fun x hx => absurd hx (List.not_mem_nil x)
              · exact fun x hx => absurd hx (List.not_mem_nil x)
          · rw [if_neg hshort]
            refine ih [(s, e, p)] (nx :: tail2) hlen' ?_ ?_ ?_
              Hrest_tail HrestPW_tail
            · intro x hx
              rw [List.mem_singleton] at hx
              subst hx
              exact ⟨not_lt.mp hshort, Hpos_head⟩
            · exact List.pairwise_singleton _ _
            · intro x hx r hr
              rw [List.mem_singleton] at hx
              subst hx
              exact HrestPW_head r hr

/-- When no pending note is short, the `merge_short_notes` loop accepts
everything unchanged: it returns the accepted prefix followed by the
pending notes. -/
theorem mergeLoop_all_long (minDur tol : ℚ) :
    ∀ (fuel : ℕ) (acc l : List (ℚ × ℚ × ℚ)), l.length ≤ fuel →
      (∀ x ∈ l, ¬ (x.2.1 - x.1 < minDur)) →
      mergeLoop minDur tol fuel acc l = acc.reverse ++ l := by
  intro fuel
  induction fuel with
  | zero =>
    intro acc l hlen _
    have hl0 : l = [] := List.length_eq_zero.mp (Nat.le_zero.mp hlen)
    subst hl0
    rw [mergeLoop, List.append_nil]
  | succ fuel ih =>
    intro acc l hlen hall
    cases l with
    | nil => rw [mergeLoop, List.append_nil]
    | cons hd tail =>
      obtain ⟨s, e, p⟩ := hd
      have hlong : ¬ (e - s < minDur) := hall (s, e, p) (List.mem_cons_self _ _)
      have hall' : ∀ x ∈ tail, ¬ (x.2.1 - x.1 < minDur) :=
        fun x hx => hall x (List.mem_cons_of_mem _ hx)
      have hlen' : tail.length ≤ fuel := by
        rw [List.length_cons] at hlen
        omega
      have hstep : ∀ acc', mergeLoop minDur tol fuel ((s, e, p) :: acc') tail
          = acc'.reverse ++ (s, e, p) :: tail := by
        intro acc'
        rw [ih ((s, e, p) :: acc') tail hlen' hall', List.reverse_cons,
          List.append_assoc, List.singleton_append]
      cases acc with
      | cons prev accT =>
        rw [mergeLoop, if_neg hlong]
        exact hstep (prev :: accT)
      | nil =>
        cases tail with
        | nil =>
          rw [mergeLoop, if_neg hlong]
          exact hstep []
        | cons nx tail2 =>
          rw [mergeLoop, if_neg hlong]
          exact hstep []

/-- C9.  On an input whose notes all have positive duration and do not
overlap once sorted by start time, every note returned by
`merge_short_notes` has duration at least `min_duration`: a short note
is always absorbed into a neighbour or dropped, never emitted as-is. -/
theorem C9_min_duration_invariant (minDur tol : ℚ) (notes : List (ℚ × ℚ × ℚ))
    (hpos : ∀ n ∈ notes, n.1 < n.2.1)
    (hsep : List.Pairwise (fun a b => a.2.1 ≤ b.1) (sortNotes notes)) :
    ∀ m ∈ merge_short_notes notes minDur tol, minDur ≤ m.2.1 - m.1 := by
  intro m hm
  rw [merge_short_notes] at hm
  exact ((mergeLoop_invariant minDur tol (sortNotes notes).length [] (sortNotes notes)
    le_rfl (fun x hx => absurd hx (List.not_mem_nil x)) List.Pairwise.nil
    (fun x hx => absurd hx (List.not_mem_nil x))
    (fun r hr => hpos r (mem_sortNotes.mp hr)) hsep).1 m hm).1

/-- C9 witness: on the well-formed input `[(0, 1, 60), (2, 3, 70)]` with
minimum duration 1/2, the note `(0, 1, 60)` survives and indeed has
duration at least 1/2. -/
theorem C9_witness :
    (1/2 : ℚ) ≤ (((0 : ℚ), (1 : ℚ), (60 : ℚ))).2.1 - (((0 : ℚ), (1 : ℚ), (60 : ℚ))).1 := by
  refine C9_min_duration_invariant (1/2) 100 [(0, 1, 60), (2, 3, 70)] ?_ ?_ (0, 1, 60) ?_
  · intro n hn
    rcases List.mem_cons.mp hn with rfl | hn
    · norm_num
    · rw [List.mem_singleton] at hn
      subst hn
      norm_num
  · norm_num [sortNotes, List.insertionSort, List.orderedInsert]
  · norm_num [merge_short_notes, sortNotes, List.insertionSort, List.orderedInsert,
      mergeLoop, abs_le, le_abs]

/-- C6 counterexample: neither refiner pass is count-idempotent on
arbitrary input.  For `smooth_vibrato` (window 0.2 s, tolerance 200
cents), the first pass collapses the last two of three notes into one
whose averaged pitch then falls within tolerance of the first note, so a
second pass collapses again (2 notes → 1).  For `merge_short_notes`
(min duration 1, tolerance 100 cents) on a nested-interval input, the
first pass leaves a note shorter than the minimum duration, which a
second pass merges away (2 notes → 1). -/
theorem C6_counterexample :
    (smooth_vibrato
        (smooth_vibrato [(0, 1/100, 60), (1/10, 11/100, 61), (3/25, 13/100, 63)] (1/5) 200)
        (1/5) 200).length
      < (smooth_vibrato [(0, 1/100, 60), (1/10, 11/100, 61), (3/25, 13/100, 63)]
          (1/5) 200).length
    ∧ (merge_short_notes
        (merge_short_notes [(0, 10, 60), (1/2, 3/5, 60), (5, 6, 60)] 1 100) 1 100).length
      < (merge_short_notes [(0, 10, 60), (1/2, 3/5, 60), (5, 6, 60)] 1 100).length := by
  have v1 : smooth_vibrato [(0, 1/100, 60), (1/10, 11/100, 61), (3/25, 13/100, 63)]
      (1/5) 200 = [(0, 1/100, 60), (1/10, 13/100, 62)] := by
    norm_num [smooth_vibrato, sortNotes, List.insertionSort, List.orderedInsert,
      smoothLoop, List.takeWhile, listMax, listMin]
  have v2 : smooth_vibrato [(0, 1/100, 60), (1/10, 13/100, 62)] (1/5) 200
      = [(0, 13/100, 123/2)] := by
    norm_num [smooth_vibrato, sortNotes, List.insertionSort, List.orderedInsert,
      smoothLoop, List.takeWhile, listMax, listMin]
  have m1 : merge_short_notes [(0, 10, 60), (1/2, 3/5, 60), (5, 6, 60)] 1 100
      = [(0, 3/5, 60), (5, 6, 60)] := by
    norm_num [merge_short_notes, sortNotes, List.insertionSort, List.orderedInsert,
      mergeLoop, abs_le, le_abs]
  have m2 : merge_short_notes [(0, 3/5, 60), (5, 6, 60)] 1 100 = [(0, 6, 60)] := by
    norm_num [merge_short_notes, sortNotes, List.insertionSort, List.orderedInsert,
      mergeLoop, abs_le, le_abs]
  rw [v1, v2, m1, m2]
  norm_num

/-- C6, amended.  On inputs whose notes have positive duration and do
not overlap once sorted by start time, the short-note merge pass is
idempotent — a second run returns its input unchanged, so the note count
cannot decrease.  The vibrato smoothing pass does not have this
property even on such inputs: a second run can collapse further and
reduce the note count, as the concrete three-note input shows. -/
theorem C6_merge_idempotent :
    (∀ (minDur tol : ℚ) (notes : List (ℚ × ℚ × ℚ)),
        (∀ n ∈ notes, n.1 < n.2.1) →
        List.Pairwise (fun a b => a.2.1 ≤ b.1) (sortNotes notes) →
        merge_short_notes (merge_short_notes notes minDur tol) minDur tol
          = merge_short_notes notes minDur tol)
    ∧ (smooth_vibrato
        (smooth_vibrato [(0, 1/100, 60), (1/10, 11/100, 61), (3/25, 13/100, 63)] (1/5) 200)
        (1/5) 200).length
      < (smooth_vibrato [(0, 1/100, 60), (1/10, 11/100, 61), (3/25, 13/100, 63)]
          (1/5) 200).length := by
  constructor
  · intro minDur tol notes hpos hsep
    have inv := mergeLoop_invariant minDur tol (sortNotes notes).length []
      (sortNotes notes) le_rfl (fun x hx => absurd hx (List.not_mem_nil x))
      List.Pairwise.nil (fun x hx => absurd hx (List.not_mem_nil x))
      (fun r hr => hpos r (mem_sortNotes.mp hr)) hsep
    rw [← merge_short_notes] at inv
    have hsorted : List.Pairwise (fun a b : ℚ × ℚ × ℚ => a.1 ≤ b.1)
        (merge_short_notes notes minDur tol) := by
      refine List.Pairwise.imp_of_mem ?_ inv.2
      intro a b ha _ hab
      exact le_of_lt (lt_of_lt_of_le (inv.1 a ha).2 hab)
    have hsorteq : sortNotes (merge_short_notes notes minDur tol)
        = merge_short_notes notes minDur tol :=
      List.Sorted.insertionSort_eq hsorted
    have hall : ∀ x ∈ merge_short_notes notes minDur tol, ¬ (x.2.1 - x.1 < minDur) :=
      fun x hx => not_lt.mpr (inv.1 x hx).1
    conv_lhs => rw [merge_short_notes]
    rw [hsorteq, mergeLoop_all_long minDur tol _ [] _ le_rfl hall,
      List.reverse_nil, List.nil_append]
  · have v1 : smooth_vibrato [(0, 1/100, 60), (1/10, 11/100, 61), (3/25, 13/100, 63)]
        (1/5) 200 = [(0, 1/100, 60), (1/10, 13/100, 62)] := by
      norm_num [smooth_vibrato, sortNotes, List.insertionSort, List.orderedInsert,
        smoothLoop, List.takeWhile, listMax, listMin]
    have v2 : smooth_vibrato [(0, 1/100, 60), (1/10, 13/100, 62)] (1/5) 200
        = [(0, 13/100, 123/2)] := by
      norm_num [smooth_vibrato, sortNotes, List.insertionSort, List.orderedInsert,
        smoothLoop, List.takeWhile, listMax, listMin]
    rw [v1, v2]
    norm_num

/-- C6 witness: on the well-formed two-note input `[(0,1,60), (2,3,70)]`
with minimum duration 1/2, running the merge pass twice equals running
it once. -/
theorem C6_witness :
    merge_short_notes (merge_short_notes [(0, 1, 60), (2, 3, 70)] (1/2) 100) (1/2) 100
      = merge_short_notes [(0, 1, 60), (2, 3, 70)] (1/2) 100 := by
  refine C6_merge_idempotent.1 (1/2) 100 [(0, 1, 60), (2, 3, 70)] ?_ ?_
  · intro n hn
    rcases List.mem_cons.mp hn with rfl | hn
    · norm_num
    · rw [List.mem_singleton] at hn
      subst hn
      norm_num
  · norm_num [sortNotes, List.insertionSort, List.orderedInsert]

/-- C3 counterexample: the short note `(2, 2.5, 70)` has a previous
accepted note `(0, 2, 60)` whose pitch difference (1000 cents) exceeds
the tolerance, while the next note `(5/2, 5, 70)` is within tolerance
(0 cents); the claim says a next-note merge must then be attempted, but
the pass drops the short note and leaves the next note unextended. -/
theorem C3_counterexample :
    merge_short_notes [(0, 2, 60), (2, 5/2, 70), (5/2, 5, 70)] 1 100
      = [(0, 2, 60), (5/2, 5, 70)]
    ∧ |(70 : ℚ) - 70| ≤ 100 / 100
    ∧ ¬ (|(70 : ℚ) - 60| ≤ 100 / 100) := by
  refine ⟨?_, by norm_num, by norm_num [abs_le]⟩
  norm_num [merge_short_notes, sortNotes, List.insertionSort, List.orderedInsert,
    mergeLoop, abs_le, le_abs]

/-- C3, amended.  In `merge_short_notes` the next-note merge is reached
only when there is no previously accepted note at all: (1) if a previous
note exists and its pitch difference exceeds the tolerance, the short
note is dropped outright — the loop proceeds with the accepted list and
the pending tail unchanged and never consults the next note; (2) only
with an empty accepted list is the next note tried, merging into it
(span from the short note's start to the next note's end,
duration-weighted pitch) when within tolerance. -/
theorem C3_next_merge_needs_no_prev (minDur tol : ℚ) :
    (∀ (fuel : ℕ) (prev : ℚ × ℚ × ℚ) (accT tail : List (ℚ × ℚ × ℚ)) (s e p : ℚ),
        e - s < minDur → ¬ (|p - prev.2.2| ≤ tol / 100) →
        mergeLoop minDur tol (fuel + 1) (prev :: accT) ((s, e, p) :: tail)
          = mergeLoop minDur tol fuel (prev :: accT) tail)
    ∧ (∀ (fuel : ℕ) (tail2 : List (ℚ × ℚ × ℚ)) (s e p : ℚ) (nx : ℚ × ℚ × ℚ),
        e - s < minDur → |p - nx.2.2| ≤ tol / 100 →
        mergeLoop minDur tol (fuel + 1) [] ((s, e, p) :: nx :: tail2)
          = mergeLoop minDur tol fuel []
              ((s, nx.2.1,
                (p * (e - s) + nx.2.2 * (nx.2.1 - nx.1)) /
                  (e - s + (nx.2.1 - nx.1))) :: tail2)) := by
  constructor
  · intro fuel prev accT tail s e p hshort htol
    rw [mergeLoop, if_pos hshort, if_neg htol]
  · intro fuel tail2 s e p nx hshort htol
    obtain ⟨ns, ne, np⟩ := nx
    rw [mergeLoop, if_pos hshort, if_pos htol]

/-- C3 witness: with a previous accepted note of pitch 60 and a short
note of pitch 70 (tolerance 100 cents), the loop drops the short note
without touching the rest. -/
theorem C3_witness :
    mergeLoop 1 100 1 [(0, 2, 60)] [(2, 5/2, 70)]
      = mergeLoop 1 100 0 [(0, 2, 60)] [] :=
  (C3_next_merge_needs_no_prev 1 100).1 0 (0, 2, 60) [] [] 2 (5/2) 70
    (by norm_num) (by norm_num [abs_le])

/-- C7 counterexample: merging the short nested note `(0.5, 0.6, 60)`
into the previous accepted note `(0, 10, 60)` produces `(0, 0.6, 60)`,
whose span does not cover the previous note's span `(0, 10)` — its end
0.6 is far short of 10.  The claimed "union of both spans" only holds
when the notes do not overlap. -/
theorem C7_counterexample :
    merge_short_notes [(0, 10, 60), (1/2, 3/5, 60)] 1 100 = [(0, 3/5, 60)]
    ∧ ¬ ((10 : ℚ) ≤ 3/5) := by
  refine ⟨?_, by norm_num⟩
  norm_num [merge_short_notes, sortNotes, List.insertionSort, List.orderedInsert,
    mergeLoop, abs_le, le_abs]

/-- C7, amended.  When the previous-note merge fires on a short note
that starts at or after the previous note's end (the non-overlapping
case), the merged note's span is the union of both spans — it runs from
`min` of the starts to `max` of the ends — and its pitch is the
duration-weighted average of the two pitches. -/
theorem C7_prev_merge_span_pitch (minDur tol : ℚ) (fuel : ℕ)
    (prev : ℚ × ℚ × ℚ) (accT tail : List (ℚ × ℚ × ℚ)) (s e p : ℚ)
    (hshort : e - s < minDur) (htol : |p - prev.2.2| ≤ tol / 100)
    (hprevpos : prev.1 < prev.2.1) (hsep : prev.2.1 ≤ s) (hpos : s < e) :
    ∃ m : ℚ × ℚ × ℚ,
      mergeLoop minDur tol (fuel + 1) (prev :: accT) ((s, e, p) :: tail)
        = mergeLoop minDur tol fuel (m :: accT) tail
      ∧ m.1 = min prev.1 s ∧ m.2.1 = max prev.2.1 e
      ∧ m.2.2 = (prev.2.2 * (prev.2.1 - prev.1) + p * (e - s)) /
          (prev.2.1 - prev.1 + (e - s)) := by
  refine ⟨(prev.1, e,
    (prev.2.2 * (prev.2.1 - prev.1) + p * (e - s)) /
      (prev.2.1 - prev.1 + (e - s))), ?_, ?_, ?_, rfl⟩
  · rw [mergeLoop, if_pos hshort, if_pos htol]
  · exact (min_eq_left (le_of_lt (lt_of_lt_of_le hprevpos hsep))).symm
  · exact (max_eq_right (le_of_lt (lt_of_le_of_lt hsep hpos))).symm

/-- C7 witness: merging the short note `(1, 1.05, 60)` into the previous
note `(0, 1, 60)` yields a note spanning `(0, 1.05)` — the union of both
spans — with the duration-weighted pitch. -/
theorem C7_witness :
    ∃ m : ℚ × ℚ × ℚ,
      mergeLoop 1 100 1 [((0 : ℚ), (1 : ℚ), (60 : ℚ))] [(1, 21/20, 60)]
        = mergeLoop 1 100 0 [m] []
      ∧ m.1 = min (0 : ℚ) 1 ∧ m.2.1 = max (1 : ℚ) (21/20)
      ∧ m.2.2 = ((60 : ℚ) * (1 - 0) + 60 * (21/20 - 1)) / (1 - 0 + (21/20 - 1)) :=
  C7_prev_merge_span_pitch 1 100 0 (0, 1, 60) [] [] 1 (21/20) 60
    (by norm_num) (by norm_num) (by norm_num) (by norm_num) (by norm_num)
